import Mathlib

/-!
Verification of `src/sage/modules/fp_graded/free_element.py`: elements of
finitely generated free graded left modules over a connected graded algebra.

A module element is embedded as its dense coefficient list (`List R`), one
algebra-ring coefficient per generator of the parent module, exactly the
`dense_coefficient_list` representation used by the source.  The algebra-ring
and parent-module collaborators (which live outside this file's source) are
modelled from the spec as explicit data: `AlgebraData` bundles the ring
element capabilities the source calls (`degree`, monomial decomposition,
ground-field coercion) and `FreeGradedModule` bundles the parent module
capabilities (`generator_degrees`, `basis_elements`).
-/

set_option linter.unusedSectionVars false

namespace FPGraded

variable {K R : Type} [CommRing K] [Ring R] [DecidableEq K] [DecidableEq R]

/-- Modelled from the spec: the algebra-ring collaborator (the algebra itself
is outside the source file).  The spec requires of ring elements: a `degree()`
operation that can itself fail on non-homogeneous ring elements (modelled as
`Option ℤ`, `none` = failure), a decomposition into `(scalar, monomial)` term
pairs (`coeffList`/`monList`, zipped exactly as the source zips
`coefficients()` with `monomials()`), and the coercion of ground-field
scalars into the algebra (`algMap`).  Ring addition/multiplication and the
`is_zero` predicate come from the `Ring R` and `DecidableEq R` instances. -/
structure AlgebraData (K R : Type) where
  deg : R → Option ℤ
  coeffList : R → List K
  monList : R → List R
  algMap : K → R

/-- Modelled from the spec: the parent free graded module collaborator
(`free_module.py` is outside the source file).  It provides the ordered
generator degree list and, per degree, the ordered basis of
monomial-generator products; the degree-`n` coordinate vector space is the
standard `K^d` with `d` the length of that basis, paired positionally, as the
spec's §4.3 step 2 requires. -/
structure FreeGradedModule (K R : Type) where
  generator_degrees : List ℤ
  basis_elements : ℤ → List (List R)

/-- Number of generators of the parent module. -/
def numGens (P : FreeGradedModule K R) : ℕ :=
  P.generator_degrees.length

/-- Modelled from the spec: `P.generator(i)`, the `i`-th generator as a
module element — the coefficient list with ring `1` in slot `i` and `0`
elsewhere. -/
def generator (P : FreeGradedModule K R) (i : ℕ) : List R :=
  (List.range (numGens P)).map fun j => if j = i then 1 else 0

/-- Source `coefficients()` (line 66): the dense ordered list of per-generator coefficients
(source line 66, `dense_coefficient_list`).  In this embedding an element is
its dense coefficient list. -/
def coefficients (x : List R) : List R := x

/-- Modelled from the spec: `is_zero()`, inherited from
`IndexedFreeModuleElement` — true iff every coefficient is the additive
identity of the algebra (spec §3 invariant). -/
def is_zero (x : List R) : Bool :=
  x.all fun c => decide (c = 0)

/-- Source `lift_to_free()`: returns the element itself (source line 137). -/
def lift_to_free (x : List R) : List R := x

/-- Source `_lmul_(a)`: the left ring action, a new element whose coefficient list
is `a * c` for each coefficient `c` (source line 177). -/
def lmul (a : R) (x : List R) : List R :=
  x.map fun c => a * c

/-- Modelled from the spec: module addition, inherited from
`IndexedFreeModuleElement` — coefficient-wise addition of the dense lists. -/
def addElt (x y : List R) : List R :=
  List.zipWith (fun a b => a + b) x y

/-- Modelled from the spec: the zero element of a module with `n`
generators — all coefficients zero. -/
def zeroElt (n : ℕ) : List R :=
  List.replicate n 0

/-- Failure kinds of `degree()`.  `zeroElement` is the
"the zero element does not have a well-defined degree" ValueError
(source line 104); `nonhomogeneous` is the "this is a nonhomogeneous
element, no well-defined degree" ValueError (source lines 111 and 116);
`emptySequence` is the uncaught ValueError Python's `min`/`max` would raise
on an empty degree list (source lines 112-113 sit outside the `try`). -/
inductive DegreeError where
  | zeroElement
  | nonhomogeneous
  | emptySequence
  deriving DecidableEq

/-- The degree-collecting loop of `degree()` (source lines 105-111): walk
`zip(generator_degrees, coefficients)`, and for each truthy (nonzero)
coefficient `c` append `g + c.degree()`.  A ValueError from any single
`c.degree()` call (modelled as `deg c = none`) aborts the whole loop, which
the source's `try`/`except` turns into the nonhomogeneous failure: the
result is `none`. -/
def collectDegrees (A : AlgebraData K R) : List ℤ → List R → Option (List ℤ)
  | _, [] => some []
  | [], _ => some []
  | g :: gs, c :: cs =>
    if c = 0 then collectDegrees A gs cs
    else
      match A.deg c with
      | none => none
      | some d => (collectDegrees A gs cs).map fun l => (g + d) :: l

/-- Source `degree()` (lines 103-116): raise on the zero element; collect
`g + c.degree()` over nonzero coefficients, converting an inner failure to
the nonhomogeneous error; then return `min` if `min == max`, else raise the
nonhomogeneous error.  An empty collected list would make Python's `min`
raise an uncaught empty-sequence ValueError, modelled as
`DegreeError.emptySequence`. -/
def degree (A : AlgebraData K R) (P : FreeGradedModule K R) (x : List R) :
    Except DegreeError ℤ :=
  if is_zero x then .error .zeroElement
  else
    match collectDegrees A P.generator_degrees x with
    | none => .error .nonhomogeneous
    | some degrees =>
      match degrees.min?, degrees.max? with
      | some m, some M => if m = M then .ok m else .error .nonhomogeneous
      | _, _ => .error .emptySequence

/-- Failure kinds of `vector_presentation()`: a propagated `degree()`
ValueError, or the generic KeyError from the `base_dict` lookup
(source line 255). -/
inductive VPError where
  | deg (e : DegreeError)
  | keyNotFound
  deriving DecidableEq

/-- Pointwise sum of two coordinate vectors over the ground field. -/
def vecAdd (v w : List K) : List K :=
  List.zipWith (fun a b => a + b) v w

/-- Scalar multiple of a coordinate vector. -/
def vecSmul (s : K) (v : List K) : List K :=
  v.map fun a => s * a

/-- The zero vector of the degree-`n` coordinate space (`base_vec.zero()`,
source line 251). -/
def vecZero (d : ℕ) : List K :=
  List.replicate d (0 : K)

/-- The `k`-th standard basis vector of `K^d` (`base_vec.basis()`,
source line 246). -/
def stdBasisVec (d k : ℕ) : List K :=
  (List.range d).map fun j => if j = k then (1 : K) else 0

/-- Python `dict(zip(keys, vals))` lookup: the value paired with the last
occurrence of the key, `none` when the key is absent (a KeyError in
Python). -/
def dictLookup {B V : Type} [DecidableEq B] (pairs : List (B × V)) (k : B) :
    Option V :=
  (pairs.reverse.find? fun p => decide (p.1 = k)).map fun p => p.2

/-- Source line 246, `base_dict = dict(zip(bas_gen, base_vec.basis()))`:
the association list from each degree-`n` basis element to its standard
basis vector, paired positionally. -/
def base_dict (P : FreeGradedModule K R) (n : ℤ) : List (List R × List K) :=
  List.zip (P.basis_elements n)
    ((List.range (P.basis_elements n).length).map
      (stdBasisVec (P.basis_elements n).length))

/-- Source `sparse_coeffs` (line 249): the `(index, coefficient)` pairs with
nonzero coefficient. -/
def sparseCoeffs (x : List R) : List (ℕ × R) :=
  x.enum.filter fun p => decide (p.2 ≠ 0)

/-- The inner loop of `vector_presentation()` (source lines 254-255): for
each `(scalar, monomial)` term of one coefficient, add
`scalar * base_dict[monomial * g]` to the accumulator; a missing key is the
generic KeyError. -/
def innerLoop (dict : List (List R × List K)) (g : List R) :
    List (K × R) → List K → Except VPError (List K)
  | [], v => .ok v
  | (s, m) :: rest, v =>
    match dictLookup dict (lmul m g) with
    | none => .error .keyNotFound
    | some bv => innerLoop dict g rest (vecAdd v (vecSmul s bv))

/-- The outer loop of `vector_presentation()` (source lines 252-255): for
each sparse `(index, coefficient)` pair, run the inner loop over the
coefficient's `(scalar, monomial)` decomposition against `generator(index)`. -/
def outerLoop (A : AlgebraData K R) (P : FreeGradedModule K R)
    (dict : List (List R × List K)) :
    List (ℕ × R) → List K → Except VPError (List K)
  | [], v => .ok v
  | (i, c) :: rest, v =>
    match innerLoop dict (generator P i)
        (List.zip (A.coeffList c) (A.monList c)) v with
    | .error e => .error e
    | .ok v2 => outerLoop A P dict rest v2

/-- Source `vector_presentation()` (lines 180-257): `None` on the zero
element; otherwise compute the degree (propagating its failures), build the
basis dictionary for that degree, and accumulate
`scalar * base_dict[monomial * generator(i)]` over the sparse coefficients'
term decompositions, starting from the zero vector. -/
def vector_presentation (A : AlgebraData K R) (P : FreeGradedModule K R)
    (x : List R) : Except VPError (Option (List K)) :=
  if is_zero x then .ok none
  else
    match degree A P x with
    | .error e => .error (.deg e)
    | .ok n =>
      match outerLoop A P (base_dict P n) (sparseCoeffs x)
          (vecZero (P.basis_elements n).length) with
      | .error e => .error e
      | .ok v => .ok (some v)

/-- The spec's reconstruction sum (round-trip law, spec §8):
`sum(scalar * basis_element for (scalar, basis_element) in zip(v, basis))`,
the sum taken with module addition starting from the zero element of a
module with `ng` generators, each term the ring action of the coerced
ground-field scalar on the basis element. -/
def reconstruct (A : AlgebraData K R) (v : List K) (bas : List (List R))
    (ng : ℕ) : List R :=
  ((List.zip v bas).map fun p => lmul (A.algMap p.1) p.2).foldl addElt
    (zeroElt ng)

/-- The value of a ring element's `(scalar, monomial)` decomposition, summed
back in the ring: `Σ algMap(s) * m` over `zip (coeffList c) (monList c)`. -/
def termSum (A : AlgebraData K R) (c : R) : R :=
  ((List.zip (A.coeffList c) (A.monList c)).map fun p =>
    A.algMap p.1 * p.2).sum

/-! ### Basic facts about `is_zero` and the coefficient list -/

theorem is_zero_eq_false_of_getD {x : List R} {i : ℕ} (hi : i < x.length)
    (hc : x.getD i 0 ≠ 0) : is_zero x = false := by
  cases h : is_zero x with
  | false => rfl
  | true =>
    exfalso
    apply hc
    have hall := List.all_eq_true.mp h
    have hmem : x.getD i 0 ∈ x := by
      rw [List.getD_eq_getElem _ _ hi]
      exact List.getElem_mem hi
    simpa using hall _ hmem

theorem exists_nonzero_of_is_zero_eq_false {x : List R}
    (h : is_zero x = false) : ∃ i, i < x.length ∧ x.getD i 0 ≠ 0 := by
  rw [ is_zero, List.all_eq_false] at h
  obtain ⟨c, hc, hne⟩ := h
  obtain ⟨i, hi, hx⟩ := List.mem_iff_getElem.mp hc
  refine ⟨i, hi, ?_⟩
  rw [List.getD_eq_getElem _ _ hi, hx]
  simpa using hne

/-! ### The degree-collecting loop -/

theorem collectDegrees_eq_none (A : AlgebraData K R) :
    ∀ (gs : List ℤ) (cs : List R) (i : ℕ), i < gs.length → i < cs.length →
      cs.getD i 0 ≠ 0 → A.deg (cs.getD i 0) = none →
      collectDegrees A gs cs = none := by
  intro gs
  induction gs with
  | nil => intro cs i hig; simp at hig
  | cons g gs ih =>
    intro cs i hig hic hc hd
    cases cs with
    | nil => simp at hic
    | cons c cs =>
      cases i with
      | zero =>
        simp only [List.getD_cons_zero] at hc hd
        simp [collectDegrees, hc, hd]
      | succ i =>
        simp only [List.getD_cons_succ] at hc hd
        simp only [List.length_cons, Nat.succ_lt_succ_iff] at hig hic
        have hrec := ih cs i hig hic hc hd
        by_cases h0 : c = 0 <;> cases hdc : A.deg c <;>
          simp [collectDegrees, hrec, h0, hdc]

theorem collectDegrees_mem (A : AlgebraData K R) :
    ∀ (gs : List ℤ) (cs : List R) (l : List ℤ) (i : ℕ) (e : ℤ),
      collectDegrees A gs cs = some l → i < gs.length → i < cs.length →
      cs.getD i 0 ≠ 0 → A.deg (cs.getD i 0) = some e →
      (gs.getD i 0 + e) ∈ l := by
  intro gs
  induction gs with
  | nil => intro cs l i e _ hig; simp at hig
  | cons g gs ih =>
    intro cs l i e hcoll hig hic hc hd
    cases cs with
    | nil => simp at hic
    | cons c cs =>
      cases i with
      | zero =>
        simp only [List.getD_cons_zero] at hc hd ⊢
        rw [show collectDegrees A (g :: gs) (c :: cs) =
            if c = 0 then collectDegrees A gs cs
            else match A.deg c with
              | none => none
              | some d => (collectDegrees A gs cs).map fun l => (g + d) :: l
          from rfl, if_neg hc, hd] at hcoll
        cases hrec : collectDegrees A gs cs with
        | none => rw [hrec] at hcoll; simp at hcoll
        | some l2 =>
          rw [hrec] at hcoll
          simp only [Option.map_some', Option.some.injEq] at hcoll
          rw [← hcoll]
          exact List.mem_cons_self _ _
      | succ i =>
        simp only [List.getD_cons_succ] at hc hd ⊢
        simp only [List.length_cons, Nat.succ_lt_succ_iff] at hig hic
        rw [show collectDegrees A (g :: gs) (c :: cs) =
            if c = 0 then collectDegrees A gs cs
            else match A.deg c with
              | none => none
              | some d => (collectDegrees A gs cs).map fun l => (g + d) :: l
          from rfl] at hcoll
        by_cases h0 : c = 0
        · rw [if_pos h0] at hcoll
          exact ih cs l i e hcoll hig hic hc hd
        · rw [if_neg h0] at hcoll
          cases hdc : A.deg c with
          | none => rw [hdc] at hcoll; cases hcoll
          | some d =>
            rw [hdc] at hcoll
            cases hrec : collectDegrees A gs cs with
            | none => rw [hrec] at hcoll; simp at hcoll
            | some l2 =>
              rw [hrec] at hcoll
              simp only [Option.map_some', Option.some.injEq] at hcoll
              rw [← hcoll]
              exact List.mem_cons_of_mem _ (ih cs l2 i e hrec hig hic hc hd)

theorem collectDegrees_deg_ne_none (A : AlgebraData K R) {gs : List ℤ}
    {cs : List R} {l : List ℤ} {i : ℕ} (hcoll : collectDegrees A gs cs = some l)
    (hig : i < gs.length) (hic : i < cs.length) (hc : cs.getD i 0 ≠ 0) :
    A.deg (cs.getD i 0) ≠ none := by
  intro hd
  rw [collectDegrees_eq_none A gs cs i hig hic hc hd] at hcoll
  cases hcoll

theorem collectDegrees_eq_spec (A : AlgebraData K R) :
    ∀ (gs : List ℤ) (cs : List R),
      (∀ p ∈ List.zip gs cs, p.2 ≠ 0 → A.deg p.2 ≠ none) →
      collectDegrees A gs cs =
        some (((List.zip gs cs).filter fun p => decide (p.2 ≠ 0)).map
          fun p => p.1 + (A.deg p.2).getD 0) := by
  intro gs
  induction gs with
  | nil => intro cs _; cases cs <;> simp [collectDegrees]
  | cons g gs ih =>
    intro cs h
    cases cs with
    | nil => simp [collectDegrees]
    | cons c cs =>
      have hrest : ∀ p ∈ List.zip gs cs, p.2 ≠ 0 → A.deg p.2 ≠ none := by
        intro p hp
        exact h p (by rw [List.zip_cons_cons]; exact List.mem_cons_of_mem _ hp)
      by_cases h0 : c = 0
      · subst h0
        simp [collectDegrees, ih cs hrest, List.zip_cons_cons]
      · have hd := h (g, c)
          (by rw [List.zip_cons_cons]; exact List.mem_cons_self _ _) h0
        obtain ⟨d, hd2⟩ := Option.ne_none_iff_exists'.mp hd
        simp [collectDegrees, h0, hd2, ih cs hrest, List.zip_cons_cons]

/-! ### Claims about `degree()` on zero and ill-formed elements -/

/-- Claim C2: on the zero element (every coefficient zero), `degree()` fails
with the zero-element error and `vector_presentation()` returns the absent
value `None` without raising. -/
theorem degree_vp_zero_element (A : AlgebraData K R) (P : FreeGradedModule K R)
    (x : List R) (h : is_zero x = true) :
    degree A P x = .error .zeroElement ∧
    vector_presentation A P x = .ok none := by
  refine ⟨?_, ?_⟩
  · simp [degree, h]
  · simp [vector_presentation, h]

/-- Claim C4: if the `degree()` call on a single nonzero coefficient itself
fails (the coefficient is not homogeneous in the ring, `deg = none`), then
`degree()` re-signals this as the nonhomogeneous-element failure — the same
kind as for mixed-degree terms — rather than propagating the inner error. -/
theorem degree_inner_failure (A : AlgebraData K R) (P : FreeGradedModule K R)
    (x : List R) (i : ℕ) (hix : i < x.length)
    (hig : i < P.generator_degrees.length) (hc : x.getD i 0 ≠ 0)
    (hd : A.deg (x.getD i 0) = none) :
    degree A P x = .error .nonhomogeneous := by
  have hz := is_zero_eq_false_of_getD hix hc
  have hcoll := collectDegrees_eq_none A P.generator_degrees x i hig hix hc hd
  simp [degree, hz, hcoll]

theorem int_min?_le {l : List ℤ} {m b : ℤ} (h : l.min? = some m)
    (hb : b ∈ l) : m ≤ b :=
  (List.le_min?_iff (fun _ _ _ => le_min_iff) h).mp (le_refl m) b hb

theorem int_le_max? {l : List ℤ} {M b : ℤ} (h : l.max? = some M)
    (hb : b ∈ l) : b ≤ M :=
  (List.max?_le_iff (fun _ _ _ => max_le_iff) h).mp (le_refl M) b hb

/-- Claim C3: an element with two nonzero coefficients whose term degrees
`generator_degree[i] + coefficients[i].degree()` differ makes both
`degree()` and `vector_presentation()` fail with the nonhomogeneous-element
error. -/
theorem degree_vp_mixed_degrees (A : AlgebraData K R)
    (P : FreeGradedModule K R) (x : List R) (i j : ℕ) (ei ej : ℤ)
    (hix : i < x.length) (hig : i < P.generator_degrees.length)
    (hjx : j < x.length) (hjg : j < P.generator_degrees.length)
    (hci : x.getD i 0 ≠ 0) (hcj : x.getD j 0 ≠ 0)
    (hdi : A.deg (x.getD i 0) = some ei) (hdj : A.deg (x.getD j 0) = some ej)
    (hne : P.generator_degrees.getD i 0 + ei ≠
      P.generator_degrees.getD j 0 + ej) :
    degree A P x = .error .nonhomogeneous ∧
    vector_presentation A P x = .error (.deg .nonhomogeneous) := by
  have hz := is_zero_eq_false_of_getD hix hci
  have hdeg : degree A P x = .error .nonhomogeneous := by
    rw [ degree, if_neg (by rw [hz]; exact Bool.false_ne_true)]
    cases hcoll : collectDegrees A P.generator_degrees x with
    | none => rfl
    | some l =>
      show (match l.min?, l.max? with
        | some m, some M =>
          if m = M then Except.ok m
          else Except.error DegreeError.nonhomogeneous
        | _, _ => Except.error DegreeError.emptySequence) =
        Except.error DegreeError.nonhomogeneous
      have hmi := collectDegrees_mem A P.generator_degrees x l i ei hcoll
        hig hix hci hdi
      have hmj := collectDegrees_mem A P.generator_degrees x l j ej hcoll
        hjg hjx hcj hdj
      have hl : l ≠ [] := by intro h; rw [h] at hmi; cases hmi
      cases hmin : l.min? with
      | none => exact absurd (List.min?_eq_none_iff.mp hmin) hl
      | some m =>
        cases hmax : l.max? with
        | none => exact absurd (List.max?_eq_none_iff.mp hmax) hl
        | some M =>
          show (if m = M then Except.ok m
            else Except.error DegreeError.nonhomogeneous) =
            Except.error DegreeError.nonhomogeneous
          rw [if_neg]
          intro hmM
          apply hne
          have h1 : m ≤ P.generator_degrees.getD i 0 + ei := int_min?_le hmin hmi
          have h2 : P.generator_degrees.getD i 0 + ei ≤ M := int_le_max? hmax hmi
          have h3 : m ≤ P.generator_degrees.getD j 0 + ej := int_min?_le hmin hmj
          have h4 : P.generator_degrees.getD j 0 + ej ≤ M := int_le_max? hmax hmj
          omega
  refine ⟨hdeg, ?_⟩
  rw [ vector_presentation, if_neg (by rw [hz]; exact Bool.false_ne_true), hdeg]

theorem degree_match_eval {l : List ℤ} {d : ℤ} (hmin : l.min? = some d)
    (hmax : l.max? = some d) :
    (match l.min?, l.max? with
      | some m, some M =>
        if m = M then Except.ok m
        else Except.error DegreeError.nonhomogeneous
      | _, _ => Except.error DegreeError.emptySequence) =
      (Except.ok d : Except DegreeError ℤ) := by
  rw [hmin, hmax]
  show (if d = d then Except.ok d
    else Except.error DegreeError.nonhomogeneous) = Except.ok d
  rw [if_pos rfl]

/-- Claim C5: on a nonzero element all of whose nonzero coefficients are
homogeneous, `degree()` collects `generator_degree + coefficient degree`
over exactly the nonzero-coefficient positions of the generator/coefficient
zip, and returns the common value when the collected minimum equals the
collected maximum. -/
theorem degree_homogeneous_value (A : AlgebraData K R)
    (P : FreeGradedModule K R) (x : List R) (d : ℤ)
    (hz : is_zero x = false)
    (hall : ∀ p ∈ List.zip P.generator_degrees x, p.2 ≠ 0 → A.deg p.2 ≠ none)
    (hmin : (((List.zip P.generator_degrees x).filter
      fun p => decide (p.2 ≠ 0)).map
      fun p => p.1 + (A.deg p.2).getD 0).min? = some d)
    (hmax : (((List.zip P.generator_degrees x).filter
      fun p => decide (p.2 ≠ 0)).map
      fun p => p.1 + (A.deg p.2).getD 0).max? = some d) :
    degree A P x = .ok d := by
  have hcoll := collectDegrees_eq_spec A P.generator_degrees x hall
  rw [ degree, if_neg (by rw [hz]; exact Bool.false_ne_true), hcoll]
  exact degree_match_eval hmin hmax

/-- Claim C10: on a nonzero element whose per-coefficient degree calls all
succeed, the collected degree list inside `degree()` is non-empty (a nonzero
element has a nonzero coefficient), so the min/max step is well-defined and
`degree()` never fails with the empty-sequence error — only the zero-element
or nonhomogeneous errors are reachable. -/
theorem degree_no_empty_sequence (A : AlgebraData K R)
    (P : FreeGradedModule K R) (x : List R) (hz : is_zero x = false)
    (hlen : x.length = P.generator_degrees.length) :
    (∀ l, collectDegrees A P.generator_degrees x = some l → l ≠ []) ∧
    degree A P x ≠ .error .emptySequence := by
  obtain ⟨i, hix, hci⟩ := exists_nonzero_of_is_zero_eq_false hz
  have hig : i < P.generator_degrees.length := hlen ▸ hix
  have hne : ∀ l, collectDegrees A P.generator_degrees x = some l → l ≠ [] := by
    intro l hcoll hnil
    have hd := collectDegrees_deg_ne_none A hcoll hig hix hci
    obtain ⟨e, he⟩ := Option.ne_none_iff_exists'.mp hd
    have := collectDegrees_mem A P.generator_degrees x l i e hcoll hig hix hci he
    rw [hnil] at this
    cases this
  refine ⟨hne, ?_⟩
  rw [ degree, if_neg (by rw [hz]; exact Bool.false_ne_true)]
  cases hcoll : collectDegrees A P.generator_degrees x with
  | none => intro h; cases h
  | some l =>
    show (match l.min?, l.max? with
      | some m, some M =>
        if m = M then Except.ok m
        else Except.error DegreeError.nonhomogeneous
      | _, _ => Except.error DegreeError.emptySequence) ≠
      Except.error DegreeError.emptySequence
    have hl := hne l hcoll
    cases hmin : l.min? with
    | none => exact absurd (List.min?_eq_none_iff.mp hmin) hl
    | some m =>
      cases hmax : l.max? with
      | none => exact absurd (List.max?_eq_none_iff.mp hmax) hl
      | some M =>
        show (if m = M then Except.ok m
          else Except.error DegreeError.nonhomogeneous) ≠
          Except.error DegreeError.emptySequence
        by_cases hmM : m = M
        · rw [if_pos hmM]; intro h; cases h
        · rw [if_neg hmM]; intro h; cases h

/-! ### Claims about the ring action -/

/-- Claim C6: the left ring action `a ⋆ x` returns a new element whose
coefficient at each index `i` is the algebra product `a * coefficients[i]`
with `a` on the left; operands are untouched (the action builds a fresh
list). -/
theorem lmul_pointwise (a : R) (x : List R) :
    (lmul a x).length = (coefficients x).length ∧
    ∀ i : ℕ, (lmul a x).getD i 0 = a * (coefficients x).getD i 0 := by
  refine ⟨by simp [lmul, coefficients], fun i => ?_⟩
  by_cases hi : i < x.length
  · have hlen : (lmul a x).length = x.length := by simp [lmul]
    rw [List.getD_eq_getElem _ _ (by rw [hlen]; exact hi)]
    rw [ coefficients, List.getD_eq_getElem _ _ hi]
    simp [lmul]
  · have hlen : (lmul a x).length = x.length := by simp [lmul]
    rw [List.getD_eq_default _ _ (by rw [hlen]; exact Nat.le_of_not_lt hi)]
    rw [ coefficients, List.getD_eq_default _ _ (Nat.le_of_not_lt hi), mul_zero]

/-- Claim C7: the ring action is bilinear over addition:
`(a+b) ⋆ x = a⋆x + b⋆x` and `a ⋆ (x+y) = a⋆x + a⋆y`. -/
theorem lmul_bilinear (a b : R) (x y : List R) :
    lmul (a + b) x = addElt (lmul a x) (lmul b x) ∧
    lmul a (addElt x y) = addElt (lmul a x) (lmul a y) := by
  refine ⟨?_, ?_⟩
  · induction x with
    | nil => rfl
    | cons c cs ih =>
      calc lmul (a + b) (c :: cs)
          = ((a + b) * c) :: lmul (a + b) cs := rfl
        _ = (a * c + b * c) :: addElt (lmul a cs) (lmul b cs) := by
            rw [add_mul, ih]
        _ = addElt (lmul a (c :: cs)) (lmul b (c :: cs)) := rfl
  · induction x generalizing y with
    | nil => rfl
    | cons c cs ih =>
      cases y with
      | nil => rfl
      | cons d ds =>
        calc lmul a (addElt (c :: cs) (d :: ds))
            = (a * (c + d)) :: lmul a (addElt cs ds) := rfl
          _ = (a * c + a * d) :: addElt (lmul a cs) (lmul a ds) := by
              rw [mul_add, ih]
          _ = addElt (lmul a (c :: cs)) (lmul a (d :: ds)) := rfl

/-! ### The vector-presentation loops and the missing-key condition -/

theorem innerLoop_error_eq (dict : List (List R × List K)) (g : List R) :
    ∀ (terms : List (K × R)) (v : List K) (e : VPError),
      innerLoop dict g terms v = .error e → e = .keyNotFound := by
  intro terms
  induction terms with
  | nil => intro v e h; cases h
  | cons q rest ih =>
    obtain ⟨s, m⟩ := q
    intro v e h
    simp only [innerLoop] at h
    cases hlk : dictLookup dict (lmul m g) with
    | none =>
      rw [hlk] at h
      exact (Except.error.inj h).symm
    | some bv =>
      rw [hlk] at h
      exact ih _ e h

theorem innerLoop_ok_lookups (dict : List (List R × List K)) (g : List R) :
    ∀ (terms : List (K × R)) (v w : List K),
      innerLoop dict g terms v = .ok w →
      ∀ q ∈ terms, dictLookup dict (lmul q.2 g) ≠ none := by
  intro terms
  induction terms with
  | nil => intro v w _ q hq; cases hq
  | cons q0 rest ih =>
    obtain ⟨s, m⟩ := q0
    intro v w h q hq
    simp only [innerLoop] at h
    cases hlk : dictLookup dict (lmul m g) with
    | none => rw [hlk] at h; cases h
    | some bv =>
      rw [hlk] at h
      rcases List.mem_cons.mp hq with hq | hq
      · subst hq; rw [hlk]; intro hc; cases hc
      · exact ih _ w h q hq

theorem outerLoop_error_eq (A : AlgebraData K R) (P : FreeGradedModule K R)
    (dict : List (List R × List K)) :
    ∀ (sp : List (ℕ × R)) (v : List K) (e : VPError),
      outerLoop A P dict sp v = .error e → e = .keyNotFound := by
  intro sp
  induction sp with
  | nil => intro v e h; cases h
  | cons p rest ih =>
    obtain ⟨i, c⟩ := p
    intro v e h
    simp only [outerLoop] at h
    cases hin : innerLoop dict (generator P i)
        (List.zip (A.coeffList c) (A.monList c)) v with
    | error e2 =>
      rw [hin] at h
      rw [← Except.error.inj h]
      exact innerLoop_error_eq dict (generator P i) _ v e2 hin
    | ok v2 =>
      rw [hin] at h
      exact ih v2 e h

theorem outerLoop_ok_lookups (A : AlgebraData K R) (P : FreeGradedModule K R)
    (dict : List (List R × List K)) :
    ∀ (sp : List (ℕ × R)) (v w : List K),
      outerLoop A P dict sp v = .ok w →
      ∀ p ∈ sp, ∀ q ∈ List.zip (A.coeffList p.2) (A.monList p.2),
        dictLookup dict (lmul q.2 (generator P p.1)) ≠ none := by
  intro sp
  induction sp with
  | nil => intro v w _ p hp; cases hp
  | cons p0 rest ih =>
    obtain ⟨i, c⟩ := p0
    intro v w h p hp q hq
    simp only [outerLoop] at h
    cases hin : innerLoop dict (generator P i)
        (List.zip (A.coeffList c) (A.monList c)) v with
    | error e2 => rw [hin] at h; cases h
    | ok v2 =>
      rw [hin] at h
      rcases List.mem_cons.mp hp with hp | hp
      · subst hp
        exact innerLoop_ok_lookups dict (generator P i) _ v v2 hin q hq
      · exact ih v2 w h p hp q hq

/-- Claim C9: if, on a homogeneous nonzero element, some `(scalar, monomial)`
term of a nonzero coefficient forms a `monomial * generator` product that is
not a key of the degree-`n` basis dictionary, `vector_presentation()` fails
with the generic key-not-found error of the dictionary lookup, not with a
named contract-violation error. -/
theorem vp_missing_key (A : AlgebraData K R) (P : FreeGradedModule K R)
    (x : List R) (n : ℤ) (p : ℕ × R) (q : K × R)
    (hz : is_zero x = false) (hdeg : degree A P x = .ok n)
    (hp : p ∈ sparseCoeffs x)
    (hq : q ∈ List.zip (A.coeffList p.2) (A.monList p.2))
    (hmiss : dictLookup (base_dict P n) (lmul q.2 (generator P p.1)) = none) :
    vector_presentation A P x = .error .keyNotFound := by
  rw [ vector_presentation, if_neg (by rw [hz]; exact Bool.false_ne_true), hdeg]
  show (match outerLoop A P (base_dict P n) (sparseCoeffs x)
      (vecZero (P.basis_elements n).length) with
    | .error e => .error e
    | .ok v => .ok (some v)) = Except.error VPError.keyNotFound
  cases hout : outerLoop A P (base_dict P n) (sparseCoeffs x)
      (vecZero (P.basis_elements n).length) with
  | error e =>
    have he := outerLoop_error_eq A P (base_dict P n) (sparseCoeffs x) _ e hout
    rw [he]
  | ok v =>
    exact absurd hmiss
      (outerLoop_ok_lookups A P (base_dict P n) (sparseCoeffs x) _ v hout p hp q hq)

/-! ### The concrete scenario of claim C8

The scenario instantiates the collaborators over `K = R = ℤ`: generators
`g0` of degree 0 and `g1` of degree 1, and a ring element `q = 5` of degree
6 that decomposes into the two monomial terms `t0 = 2` and `t1 = 3`
(scalars `[1, 1]`, monomials `[2, 3]`, and `1*2 + 1*3 = 5`).  The element
`x8 = q*g0 + 1*g1` has coefficient list `[5, 1]`. -/

def A8 : AlgebraData ℤ ℤ where
  deg c :=
    if c = 5 then some 6
    else if c = 2 then some 6
    else if c = 3 then some 6
    else if c = 1 then some 0
    else none
  coeffList c := if c = 5 then [1, 1] else if c = 0 then [] else [1]
  monList c := if c = 5 then [2, 3] else if c = 0 then [] else [c]
  algMap k := k

def P8 : FreeGradedModule ℤ ℤ where
  generator_degrees := [0, 1]
  basis_elements := fun _ => []

def x8 : List ℤ := [5, 1]

/-- Claim C8 counterexample: in the claim's scenario — generators of degrees
0 and 1, ring element `q` of degree 6 decomposing into two monomial terms,
element `x = q*g0 + 1*g1` — `degree()` does not return 7: the two nonzero
terms have degrees `0 + 6 = 6` and `1 + 0 = 1`, so the element is
nonhomogeneous and `degree()` raises instead. -/
theorem scenario_degree_counterexample :
    A8.deg 5 = some 6 ∧ A8.monList 5 = [2, 3] ∧ termSum A8 5 = 5 ∧
    P8.generator_degrees = [0, 1] ∧ coefficients x8 = [5, 1] ∧
    degree A8 P8 x8 ≠ .ok 7 := by
  refine ⟨rfl, rfl, by decide, rfl, rfl, ?_⟩
  intro h
  have hval : degree A8 P8 x8 = .error .nonhomogeneous := rfl
  rw [hval] at h
  exact Except.noConfusion h

/-- Claim C8 (amended): in the stated scenario the element `x = q*g0 + 1*g1`
has `coefficients() == [q, 1]`, but its two terms have distinct degrees
6 and 1, so it is nonhomogeneous: `degree()` and `vector_presentation()`
both fail with the nonhomogeneous-element error instead of returning 7 and
a coordinate vector. -/
theorem scenario_amended :
    coefficients x8 = [5, 1] ∧
    degree A8 P8 x8 = .error .nonhomogeneous ∧
    vector_presentation A8 P8 x8 = .error (.deg .nonhomogeneous) :=
  ⟨rfl, rfl, rfl⟩

/-! ### Entry-wise lemmas for coordinate vectors and module elements -/

theorem zipWith_add_getD {M : Type} [AddZeroClass M] :
    ∀ (v w : List M), v.length = w.length → ∀ k : ℕ,
      (List.zipWith (fun a b => a + b) v w).getD k 0 =
        v.getD k 0 + w.getD k 0 := by
  intro v
  induction v with
  | nil =>
    intro w hw k
    cases w with
    | nil => simp
    | cons b bs => simp at hw
  | cons a as ih =>
    intro w hw k
    cases w with
    | nil => simp at hw
    | cons b bs =>
      cases k with
      | zero => simp
      | succ k =>
        simp only [List.zipWith_cons_cons, List.getD_cons_succ]
        exact ih bs (by simpa using hw) k

theorem vecAdd_length (v w : List K) (h : v.length = w.length) :
    (vecAdd v w).length = v.length := by
  simp [vecAdd, h]

theorem vecSmul_length (s : K) (v : List K) :
    (vecSmul s v).length = v.length := by
  simp [vecSmul]

theorem stdBasisVec_length (d k : ℕ) :
    (stdBasisVec d k : List K).length = d := by
  simp [stdBasisVec]

theorem vecZero_length (d : ℕ) : (vecZero d : List K).length = d := by
  simp [vecZero]

theorem vecAdd_getD (v w : List K) (h : v.length = w.length) (k : ℕ) :
    (vecAdd v w).getD k 0 = v.getD k 0 + w.getD k 0 :=
  zipWith_add_getD v w h k

theorem addElt_getD (x y : List R) (h : x.length = y.length) (k : ℕ) :
    (addElt x y).getD k 0 = x.getD k 0 + y.getD k 0 :=
  zipWith_add_getD x y h k

theorem vecSmul_getD (s : K) (v : List K) (k : ℕ) :
    (vecSmul s v).getD k 0 = s * v.getD k 0 := by
  have h := List.getD_map (l := v) (n := k) (d := 0) fun a => s * a
  rw [mul_zero] at h
  exact h

theorem lmul_getD (m : R) (g : List R) (j : ℕ) :
    (lmul m g).getD j 0 = m * g.getD j 0 := by
  have h := List.getD_map (l := g) (n := j) (d := 0) fun c => m * c
  rw [mul_zero] at h
  exact h

theorem stdBasisVec_getD (d c k : ℕ) :
    (stdBasisVec d c : List K).getD k 0 =
      if k = c ∧ k < d then 1 else 0 := by
  by_cases hk : k < d
  · rw [List.getD_eq_getElem _ _ (by simpa [stdBasisVec] using hk)]
    simp [stdBasisVec, hk]
  · rw [List.getD_eq_default _ _
      (by simpa [stdBasisVec] using Nat.le_of_not_lt hk)]
    simp [hk]

theorem generator_getD (P : FreeGradedModule K R) (i j : ℕ) :
    (generator P i : List R).getD j 0 =
      if j = i ∧ j < numGens P then 1 else 0 := by
  by_cases hj : j < numGens P
  · rw [List.getD_eq_getElem _ _ (by simpa [ generator] using hj)]
    simp [ generator, hj]
  · rw [List.getD_eq_default _ _
      (by simpa [ generator] using Nat.le_of_not_lt hj)]
    simp [hj]

theorem vecZero_getD (d k : ℕ) : (vecZero d : List K).getD k 0 = 0 := by
  by_cases h : k < d
  · rw [List.getD_eq_getElem _ _ (by simpa [vecZero] using h)]
    simp [vecZero]
  · rw [List.getD_eq_default _ _
      (by simpa [vecZero] using Nat.le_of_not_lt h)]

theorem zeroElt_getD (n j : ℕ) : (zeroElt n : List R).getD j 0 = 0 := by
  by_cases h : j < n
  · rw [List.getD_eq_getElem _ _ (by simpa [zeroElt] using h)]
    simp [zeroElt]
  · rw [List.getD_eq_default _ _
      (by simpa [zeroElt] using Nat.le_of_not_lt h)]

/-! ### Sum helpers -/

theorem sum_map_add {α M : Type} [AddCommMonoid M] (l : List α)
    (f g : α → M) :
    (l.map fun a => f a + g a).sum = (l.map f).sum + (l.map g).sum := by
  induction l with
  | nil => simp
  | cons a as ih =>
    rw [List.map_cons, List.map_cons, List.map_cons, List.sum_cons,
      List.sum_cons, List.sum_cons, ih, add_add_add_comm]

theorem sum_map_single {M : Type} [AddCommMonoid M] (f : ℕ → M) :
    ∀ (d c : ℕ), c < d →
      ((List.range d).map fun k => if k = c then f k else 0).sum = f c := by
  intro d
  induction d with
  | zero => intro c hc; omega
  | succ d ih =>
    intro c hc
    rw [List.range_succ, List.map_append, List.sum_append]
    by_cases h : c < d
    · rw [ih c h]
      have hd : ¬ d = c := by omega
      simp [hd]
    · have hc2 : c = d := by omega
      subst hc2
      have hzero : ((List.range c).map fun k =>
          if k = c then f k else 0).sum = 0 := by
        apply List.sum_eq_zero
        intro a ha
        obtain ⟨k, hk, hka⟩ := List.mem_map.mp ha
        have : ¬ k = c := by
          have := List.mem_range.mp hk
          omega
        rw [← hka, if_neg this]
      rw [hzero, zero_add]
      simp

/-! ### The semantic value of a coordinate vector against a basis

`phi A bas j v` is the `j`-th coefficient of the module element
`Σ_k algMap(v[k]) * bas[k]`; the reconstruction sum of the round-trip law
computes exactly this at every position. -/

def phi (A : AlgebraData K R) (bas : List (List R)) (j : ℕ)
    (v : List K) : R :=
  ((List.range bas.length).map fun k =>
    A.algMap (v.getD k 0) * (bas.getD k []).getD j 0).sum

theorem phi_vecAdd (A : AlgebraData K R) (bas : List (List R)) (j : ℕ)
    (hadd : ∀ a b : K, A.algMap (a + b) = A.algMap a + A.algMap b)
    (v w : List K) (h : v.length = w.length) :
    phi A bas j (vecAdd v w) = phi A bas j v + phi A bas j w := by
  rw [ phi,  phi,  phi, ← sum_map_add]
  apply congrArg
  apply List.map_congr_left
  intro k _
  rw [vecAdd_getD v w h k, hadd, add_mul]

theorem phi_vecZero (A : AlgebraData K R) (bas : List (List R)) (j : ℕ)
    (h0 : A.algMap 0 = 0) (d : ℕ) :
    phi A bas j (vecZero d) = 0 := by
  apply List.sum_eq_zero
  intro a ha
  obtain ⟨k, _, hka⟩ := List.mem_map.mp ha
  rw [← hka, vecZero_getD, h0, zero_mul]

theorem phi_smul_basis (A : AlgebraData K R) (bas : List (List R)) (j : ℕ)
    (h0 : A.algMap 0 = 0) (s : K) (c : ℕ) (hc : c < bas.length) :
    phi A bas j (vecSmul s (stdBasisVec bas.length c)) =
      A.algMap s * (bas.getD c []).getD j 0 := by
  rw [ phi]
  have hcongr : ∀ k ∈ List.range bas.length,
      A.algMap ((vecSmul s (stdBasisVec bas.length c)).getD k 0) *
        (bas.getD k []).getD j 0 =
      if k = c then A.algMap s * (bas.getD k []).getD j 0 else 0 := by
    intro k _
    rw [vecSmul_getD, stdBasisVec_getD]
    by_cases hkc : k = c
    · subst hkc
      rw [if_pos ⟨rfl, hc⟩, if_pos rfl, mul_one]
    · rw [if_neg (by intro h; exact hkc h.1), if_neg hkc, mul_zero, h0,
        zero_mul]
  rw [List.map_congr_left hcongr,
    sum_map_single (fun k => A.algMap s * (bas.getD k []).getD j 0)
      bas.length c hc]

theorem base_dict_lookup (P : FreeGradedModule K R) (n : ℤ) (key : List R)
    (bv : List K) (h : dictLookup (base_dict P n) key = some bv) :
    ∃ c : ℕ, c < (P.basis_elements n).length ∧
      (P.basis_elements n).getD c [] = key ∧
      bv = stdBasisVec (P.basis_elements n).length c := by
  rw [dictLookup, Option.map_eq_some'] at h
  obtain ⟨p, hfind, hp2⟩ := h
  have hpred := List.find?_some hfind
  have hmem := List.mem_reverse.mp (List.mem_of_find?_eq_some hfind)
  rw [base_dict] at hmem
  obtain ⟨c, hc, hpc⟩ := List.mem_iff_getElem.mp hmem
  have hd : ((List.range (P.basis_elements n).length).map
      (stdBasisVec (P.basis_elements n).length) :
        List (List K)).length = (P.basis_elements n).length := by
    simp
  have hclen : c < (P.basis_elements n).length := by
    rw [List.length_zip, hd] at hc
    omega
  rw [List.getElem_zip] at hpc
  have h1 : (P.basis_elements n)[c] = p.1 := congrArg Prod.fst hpc
  have h2 : ((List.range (P.basis_elements n).length).map
      (stdBasisVec (P.basis_elements n).length) : List (List K))[c] = p.2 :=
    congrArg Prod.snd hpc
  refine ⟨c, hclen, ?_, ?_⟩
  · rw [List.getD_eq_getElem _ _ hclen, h1]
    exact of_decide_eq_true hpred
  · rw [List.getElem_map, List.getElem_range] at h2
    rw [← hp2, ← h2]

theorem innerLoop_char (A : AlgebraData K R) (P : FreeGradedModule K R)
    (n : ℤ) (j : ℕ) (h0 : A.algMap 0 = 0)
    (hadd : ∀ a b : K, A.algMap (a + b) = A.algMap a + A.algMap b)
    (g : List R) :
    ∀ (terms : List (K × R)) (v w : List K),
      v.length = (P.basis_elements n).length →
      innerLoop (base_dict P n) g terms v = .ok w →
      w.length = (P.basis_elements n).length ∧
      phi A (P.basis_elements n) j w = phi A (P.basis_elements n) j v +
        (terms.map fun q =>
          A.algMap q.1 * (lmul q.2 g).getD j 0).sum := by
  intro terms
  induction terms with
  | nil =>
    intro v w hv h
    injection h with h
    subst h
    exact ⟨hv, by simp⟩
  | cons q rest ih =>
    obtain ⟨s, m⟩ := q
    intro v w hv h
    simp only [innerLoop] at h
    cases hlk : dictLookup (base_dict P n) (lmul m g) with
    | none => rw [hlk] at h; cases h
    | some bv =>
      rw [hlk] at h
      obtain ⟨c, hc, hkey, hbv⟩ := base_dict_lookup P n _ bv hlk
      subst hbv
      have hsl : v.length =
          (vecSmul s (stdBasisVec (P.basis_elements n).length c)
            : List K).length := by
        rw [vecSmul_length, stdBasisVec_length, hv]
      have hlen2 : (vecAdd v
          (vecSmul s (stdBasisVec (P.basis_elements n).length c))).length =
          (P.basis_elements n).length := by
        rw [vecAdd_length _ _ hsl, hv]
      obtain ⟨hwlen, hphi⟩ := ih _ w hlen2 h
      refine ⟨hwlen, ?_⟩
      rw [hphi, phi_vecAdd A _ j hadd v _ hsl, phi_smul_basis A _ j h0 s c hc,
        hkey, List.map_cons, List.sum_cons, add_assoc]

theorem outerLoop_char (A : AlgebraData K R) (P : FreeGradedModule K R)
    (n : ℤ) (j : ℕ) (h0 : A.algMap 0 = 0)
    (hadd : ∀ a b : K, A.algMap (a + b) = A.algMap a + A.algMap b) :
    ∀ (sp : List (ℕ × R)) (v w : List K),
      v.length = (P.basis_elements n).length →
      outerLoop A P (base_dict P n) sp v = .ok w →
      w.length = (P.basis_elements n).length ∧
      phi A (P.basis_elements n) j w = phi A (P.basis_elements n) j v +
        (sp.map fun p =>
          ((List.zip (A.coeffList p.2) (A.monList p.2)).map fun q =>
            A.algMap q.1 * (lmul q.2 (generator P p.1)).getD j 0).sum).sum := by
  intro sp
  induction sp with
  | nil =>
    intro v w hv h
    injection h with h
    subst h
    exact ⟨hv, by simp⟩
  | cons p rest ih =>
    obtain ⟨i, c⟩ := p
    intro v w hv h
    simp only [outerLoop] at h
    cases hin : innerLoop (base_dict P n) (generator P i)
        (List.zip (A.coeffList c) (A.monList c)) v with
    | error e => rw [hin] at h; cases h
    | ok v2 =>
      rw [hin] at h
      obtain ⟨h2len, h2phi⟩ :=
        innerLoop_char A P n j h0 hadd (generator P i) _ v v2 hv hin
      obtain ⟨hwlen, hwphi⟩ := ih v2 w h2len h
      refine ⟨hwlen, ?_⟩
      rw [hwphi, h2phi, List.map_cons, List.sum_cons, add_assoc]

/-! ### Summing over the sparse coefficient list -/

theorem sparse_sum_eq (f : ℕ → R) :
    ∀ (x : List R) (k : ℕ),
      (((List.enumFrom k x).filter fun p => decide (p.2 ≠ 0)).map
        fun p => p.2 * f p.1).sum =
      ((List.enumFrom k x).map fun p => p.2 * f p.1).sum := by
  intro x
  induction x with
  | nil => intro k; rfl
  | cons c cs ih =>
    intro k
    rw [List.enumFrom_cons]
    by_cases h0 : c = 0
    · subst h0
      rw [List.filter_cons_of_neg (by simp), List.map_cons, List.sum_cons,
        zero_mul, zero_add]
      exact ih (k + 1)
    · rw [List.filter_cons_of_pos (by simpa using h0), List.map_cons,
        List.map_cons, List.sum_cons, List.sum_cons, ih (k + 1)]

theorem delta_sum_enumFrom :
    ∀ (x : List R) (k j : ℕ),
      ((List.enumFrom k x).map fun p =>
        p.2 * (if j = p.1 then (1 : R) else 0)).sum =
      if k ≤ j ∧ j < k + x.length then x.getD (j - k) 0 else 0 := by
  intro x
  induction x with
  | nil =>
    intro k j
    rw [List.enumFrom_nil, List.map_nil, List.sum_nil, if_neg (by simp)]
  | cons c cs ih =>
    intro k j
    simp only [List.length_cons]
    rw [List.enumFrom_cons, List.map_cons, List.sum_cons, ih (k + 1) j]
    by_cases hjk : j = k
    · subst hjk
      rw [if_pos rfl, mul_one, if_neg (by omega), add_zero,
        if_pos (by omega), Nat.sub_self, List.getD_cons_zero]
    · rw [if_neg (by intro h; exact hjk h), mul_zero, zero_add]
      by_cases hcond : k + 1 ≤ j ∧ j < k + 1 + cs.length
      · rw [if_pos hcond, if_pos (by omega)]
        have hsub : j - k = (j - (k + 1)) + 1 := by omega
        rw [hsub, List.getD_cons_succ]
      · rw [if_neg hcond, if_neg (by omega)]

/-! ### Entry-wise computation of the reconstruction sum -/

theorem foldl_addElt_getD :
    ∀ (ts : List (List R)) (acc : List R) (ng : ℕ),
      (∀ t ∈ ts, t.length = ng) → acc.length = ng →
      (ts.foldl addElt acc).length = ng ∧
      ∀ j, (ts.foldl addElt acc).getD j 0 =
        acc.getD j 0 + (ts.map fun t => t.getD j 0).sum := by
  intro ts
  induction ts with
  | nil => intro acc ng _ hacc; exact ⟨hacc, by simp⟩
  | cons t ts ih =>
    intro acc ng hts hacc
    rw [List.foldl_cons]
    have ht : t.length = ng := hts t (List.mem_cons_self _ _)
    have hlen : (addElt acc t).length = ng := by
      rw [addElt, List.length_zipWith, hacc, ht, min_self]
    obtain ⟨h1, h2⟩ :=
      ih (addElt acc t) ng (fun u hu => hts u (List.mem_cons_of_mem _ hu)) hlen
    refine ⟨h1, fun j => ?_⟩
    rw [h2 j, addElt_getD acc t (by rw [hacc, ht]) j, List.map_cons,
      List.sum_cons, add_assoc]

theorem zip_sum_phi (A : AlgebraData K R) (j : ℕ) :
    ∀ (v : List K) (bas : List (List R)), v.length = bas.length →
      ((List.zip v bas).map fun p => A.algMap p.1 * (p.2.getD j 0)).sum =
      phi A bas j v := by
  intro v
  induction v with
  | nil =>
    intro bas h
    cases bas with
    | nil => simp [ phi]
    | cons b bs => simp at h
  | cons a as ih =>
    intro bas h
    cases bas with
    | nil => simp at h
    | cons b bs =>
      rw [List.zip_cons_cons, List.map_cons, List.sum_cons,
        ih bs (by simpa using h)]
      rw [ phi,  phi]
      simp only [List.length_cons, List.range_succ_eq_map, List.map_cons,
        List.map_map, List.sum_cons, List.getD_cons_zero, Function.comp_def,
        Nat.succ_eq_add_one, List.getD_cons_succ]

/-- Claim C1: the round-trip law — for a homogeneous nonzero element `x` of
degree `n`, summing `scalar * basis_element` over
`zip(vector_presentation(x), basis_elements(n))` reconstructs an element
equal to `x`; `vector_presentation` is a right inverse of the basis
expansion for homogeneous elements.  The hypotheses are the collaborator
contracts of the spec: the element has one coefficient per generator, every
degree-`n` basis element does too, the ground-field coercion into the
algebra is additive, and every ring element equals the ring sum of its
`(scalar, monomial)` decomposition. -/
theorem vp_roundtrip (A : AlgebraData K R) (P : FreeGradedModule K R)
    (x : List R) (n : ℤ) (v : List K)
    (hlen : x.length = numGens P)
    (hbas : ∀ b ∈ P.basis_elements n, b.length = numGens P)
    (h0 : A.algMap 0 = 0)
    (hadd : ∀ a b : K, A.algMap (a + b) = A.algMap a + A.algMap b)
    (hdecomp : ∀ c : R, termSum A c = c)
    (hdeg : degree A P x = .ok n)
    (hvp : vector_presentation A P x = .ok (some v)) :
    reconstruct A v (P.basis_elements n) (numGens P) = x := by
  have hz : is_zero x = false := by
    cases hz0 : is_zero x with
    | false => rfl
    | true =>
      rw [ vector_presentation, if_pos hz0] at hvp
      exact Option.noConfusion (Except.ok.inj hvp)
  rw [ vector_presentation, if_neg (by rw [hz]; exact Bool.false_ne_true),
    hdeg] at hvp
  replace hvp : (match outerLoop A P (base_dict P n) (sparseCoeffs x)
      (vecZero (P.basis_elements n).length) with
    | .error e => (.error e : Except VPError (Option (List K)))
    | .ok w => .ok (some w)) = .ok (some v) := hvp
  cases hout : outerLoop A P (base_dict P n) (sparseCoeffs x)
      (vecZero (P.basis_elements n).length) with
  | error e => rw [hout] at hvp; cases hvp
  | ok w =>
    rw [hout] at hvp
    have hwv : w = v := Option.some.inj (Except.ok.inj hvp)
    subst hwv
    obtain ⟨hvlen, _⟩ := outerLoop_char A P n 0 h0 hadd _ _ w
      (vecZero_length _) hout
    have hts : ∀ t ∈ (List.zip w (P.basis_elements n)).map
        (fun p => lmul (A.algMap p.1) p.2), t.length = numGens P := by
      intro t ht
      obtain ⟨p, hp, hpt⟩ := List.mem_map.mp ht
      rw [← hpt,  lmul, List.length_map]
      exact hbas p.2 (List.of_mem_zip hp).2
    obtain ⟨hrlen, hrget⟩ := foldl_addElt_getD
      ((List.zip w (P.basis_elements n)).map fun p => lmul (A.algMap p.1) p.2)
      (zeroElt (numGens P)) (numGens P) hts (by simp [zeroElt])
    have hentry : ∀ j, j < numGens P →
        (reconstruct A w (P.basis_elements n) (numGens P)).getD j 0 =
        x.getD j 0 := by
      intro j hj
      obtain ⟨_, hphi⟩ := outerLoop_char A P n j h0 hadd _ _ w
        (vecZero_length _) hout
      rw [phi_vecZero A _ j h0, zero_add] at hphi
      rw [ reconstruct, hrget j, zeroElt_getD, zero_add, List.map_map]
      have hmc : ∀ p ∈ List.zip w (P.basis_elements n),
          ((fun t => t.getD j 0) ∘ fun p => lmul (A.algMap p.1) p.2) p =
          A.algMap p.1 * (p.2.getD j 0) := by
        intro p _
        simp only [Function.comp_apply]
        exact lmul_getD _ _ _
      rw [List.map_congr_left hmc, zip_sum_phi A j w _ hvlen, hphi]
      have hinner : ∀ p ∈ sparseCoeffs x,
          ((List.zip (A.coeffList p.2) (A.monList p.2)).map fun q =>
            A.algMap q.1 * (lmul q.2 (generator P p.1)).getD j 0).sum =
          p.2 * ((generator P p.1).getD j 0) := by
        intro p _
        have hq : ∀ q ∈ List.zip (A.coeffList p.2) (A.monList p.2),
            A.algMap q.1 * (lmul q.2 (generator P p.1)).getD j 0 =
            (A.algMap q.1 * q.2) * ((generator P p.1).getD j 0) := by
          intro q _
          rw [lmul_getD, mul_assoc]
        rw [List.map_congr_left hq,
          List.sum_map_mul_right (List.zip (A.coeffList p.2) (A.monList p.2))
            (fun q => A.algMap q.1 * q.2) ((generator P p.1).getD j 0),
          show ((List.zip (A.coeffList p.2) (A.monList p.2)).map fun q =>
            A.algMap q.1 * q.2).sum = termSum A p.2 from rfl,
          hdecomp p.2]
      rw [List.map_congr_left hinner]
      have hgen : ∀ p ∈ sparseCoeffs x,
          p.2 * ((generator P p.1).getD j 0) =
          p.2 * (if j = p.1 then (1 : R) else 0) := by
        intro p _
        rw [generator_getD]
        congr 1
        by_cases hjp : j = p.1
        · rw [if_pos ⟨hjp, hj⟩, if_pos hjp]
        · rw [if_neg (fun h => hjp h.1), if_neg hjp]
      rw [List.map_congr_left hgen,
        show sparseCoeffs x =
          (List.enumFrom 0 x).filter (fun p => decide (p.2 ≠ 0)) from rfl,
        sparse_sum_eq (fun i => if j = i then (1 : R) else 0) x 0,
        delta_sum_enumFrom x 0 j,
        if_pos (by refine ⟨Nat.zero_le j, ?_⟩; omega), Nat.sub_zero]
    apply List.ext_getElem
    · rw [ reconstruct, hrlen, hlen]
    · intro i h1 h2
      have hi : i < numGens P := hlen ▸ h2
      rw [← List.getD_eq_getElem _ 0 h1, ← List.getD_eq_getElem _ 0 h2]
      exact hentry i hi

/-! ### Concrete witness instances

`Awit`/`Pwit`: a one-generator module over the ground field `ZMod 2` acting
as its own algebra (the unit is the only monomial), small enough that the
round-trip contracts are decidable.  `Aint`/`Pint`: a two-generator module
over `ℤ` with generator degrees 0 and 1, where the element 7 is marked
non-homogeneous (`deg = none`), the element 2 has degree 1, and every other
nonzero element has degree 0; its basis enumeration is empty in every
degree. -/

def Awit : AlgebraData (ZMod 2) (ZMod 2) where
  deg c := if c = 0 then none else some 0
  coeffList c := if c = 0 then [] else [1]
  monList c := if c = 0 then [] else [1]
  algMap k := k

def Pwit : FreeGradedModule (ZMod 2) (ZMod 2) where
  generator_degrees := [0]
  basis_elements n := if n = 0 then [[1]] else []

def Aint : AlgebraData ℤ ℤ where
  deg c :=
    if c = 0 then none
    else if c = 7 then none
    else if c = 2 then some 1
    else some 0
  coeffList c := if c = 0 then [] else [1]
  monList c := if c = 0 then [] else [c]
  algMap k := k

def Pint : FreeGradedModule ℤ ℤ where
  generator_degrees := [0, 1]
  basis_elements := fun _ => []

/-- Witness for claim C1: in the `ZMod 2` instance, the element `[1]` is
homogeneous of degree 0 with coordinate vector `[1]`, and the reconstruction
sum returns `[1]` again. -/
theorem vp_roundtrip_witness :
    reconstruct Awit [1] (Pwit.basis_elements 0) (numGens Pwit) = [1] :=
  vp_roundtrip Awit Pwit [1] 0 [1] rfl (by decide) rfl (by decide)
    (by decide) rfl rfl

/-- Witness for claim C2 at the zero element `[0, 0]` of the `ℤ` instance. -/
theorem degree_vp_zero_element_witness :
    degree Aint Pint [0, 0] = .error .zeroElement ∧
    vector_presentation Aint Pint [0, 0] = .ok none :=
  degree_vp_zero_element Aint Pint [0, 0] (by decide)

/-- Witness for claim C3 at the element `[1, 1]` of the `ℤ` instance, whose
two terms have degrees `0 + 0 = 0` and `1 + 0 = 1`. -/
theorem degree_vp_mixed_degrees_witness :
    degree Aint Pint [1, 1] = .error .nonhomogeneous ∧
    vector_presentation Aint Pint [1, 1] = .error (.deg .nonhomogeneous) :=
  degree_vp_mixed_degrees Aint Pint [1, 1] 0 1 0 0 (by decide) (by decide)
    (by decide) (by decide) (by decide) (by decide) rfl rfl (by decide)

/-- Witness for claim C4 at the element `[7, 0]` of the `ℤ` instance, whose
single nonzero coefficient 7 is marked non-homogeneous in the ring. -/
theorem degree_inner_failure_witness :
    degree Aint Pint [7, 0] = .error .nonhomogeneous :=
  degree_inner_failure Aint Pint [7, 0] 0 (by decide) (by decide) (by decide)
    rfl

/-- Witness for claim C5 at the element `[2, 1]` of the `ℤ` instance, whose
two terms have the common degree `0 + 1 = 1 + 0 = 1`. -/
theorem degree_homogeneous_value_witness :
    degree Aint Pint [2, 1] = .ok 1 :=
  degree_homogeneous_value Aint Pint [2, 1] 1 (by decide) (by decide)
    (by decide) (by decide)

/-- Witness for claim C9 at the element `[2, 1]` of the `ℤ` instance: its
degree is 1, but the basis enumeration in degree 1 is empty, so the product
of the monomial 2 with generator 0 is not a dictionary key. -/
theorem vp_missing_key_witness :
    vector_presentation Aint Pint [2, 1] = .error .keyNotFound :=
  vp_missing_key Aint Pint [2, 1] 1 (0, 2) (1, 2) (by decide) rfl (by decide)
    (by decide) rfl

/-- Witness for claim C10 at the nonzero element `[1, 1]` of the `ℤ`
instance. -/
theorem degree_no_empty_sequence_witness :
    degree Aint Pint [1, 1] ≠ .error .emptySequence :=
  (degree_no_empty_sequence Aint Pint [1, 1] (by decide) rfl).2

end FPGraded
